import Mathlib

/-!
Verification of the netlink message framing and decoding engine
(`src/netlink-rs/src/socket/mod.rs`): header/payload/message codecs,
length and alignment arithmetic, and the receive-buffer walker.

Bytes are modelled as `List Nat` (each element a byte value `< 256`);
machine integers are modelled as `Nat`/`Int` with explicit reductions
modulo `2 ^ w` where the source uses fixed-width arithmetic.  Fallible
operations return `Except NlError`.  The header codec itself lives in
the repository's `msg` module; its operations are modelled from the
spec (marked `Modelled from the spec:` below), while everything in
`socket/mod.rs` is translated directly from the source.
-/

namespace Netlink

/-- Little-endian read of two byte values. -/
def readLE16 (b0 b1 : Nat) : Nat := b0 + 256 * b1

/-- Little-endian read of four byte values. -/
def readLE32 (b0 b1 b2 b3 : Nat) : Nat :=
  b0 + 256 * b1 + 65536 * b2 + 16777216 * b3

/-- Little-endian encoding of a 16-bit value as two bytes. -/
def le16 (v : Nat) : List Nat := [v % 256, v / 256 % 256]

/-- Little-endian encoding of a 32-bit value as four bytes. -/
def le32 (v : Nat) : List Nat :=
  [v % 256, v / 256 % 256, v / 65536 % 256, v / 16777216 % 256]

/-- Four little-endian byte values read back as a signed 32-bit integer
(two's complement), as `read_i32::<NativeEndian>` does. -/
def readI32 (b0 b1 b2 b3 : Nat) : Int :=
  let u := readLE32 b0 b1 b2 b3
  if u < 2 ^ 31 then (u : Int) else (u : Int) - 2 ^ 32

/-- Little-endian encoding of a signed 32-bit integer (two's complement),
as `write_i32::<NativeEndian>` does. -/
def le32i (v : Int) : List Nat := le32 (v % (2 ^ 32)).toNat

/-- `const NLMSG_ALIGNTO: usize = 4;` -/
def NLMSG_ALIGNTO : Nat := 4

/-- `fn nlmsg_align(len: usize) -> usize { (len + (NLMSG_ALIGNTO - 1)) & !(NLMSG_ALIGNTO - 1) }`
with 64-bit `usize` semantics: the addition wraps modulo `2 ^ 64` and
`!(NLMSG_ALIGNTO - 1)` is the 64-bit complement of `3`. -/
def nlmsg_align (len : Nat) : Nat :=
  ((len + (NLMSG_ALIGNTO - 1)) % 2 ^ 64) &&& ((2 ^ 64 - 1) - (NLMSG_ALIGNTO - 1))

/-- Message-type discrimination used by `Msg::from_bytes`. -/
inductive MsgType where
  | Data
  | Error
  | Done
deriving DecidableEq

/-- Decode-error taxonomy of the codecs (the source uses `io::Error`
values distinguished by kind and message text). -/
inductive NlError where
  | malformedHeader
  | invalidMessageLength
  | truncatedPayload
  | unexpectedEof
deriving DecidableEq

/-- Modelled from the spec: the fixed-size netlink header record of the
Header Codec (module `msg`, not under the translated sources): `u32
length`, `u16 type`, `u16 flags`, `u32 sequence`, `u32 port_id` —
16 bytes on the wire. -/
structure NlMsgHeader where
  nlmsg_len : Nat
  nlmsg_type : Nat
  nlmsg_flags : Nat
  nlmsg_seq : Nat
  nlmsg_pid : Nat
deriving DecidableEq

/-- `fn nlmsg_header_length() -> usize { nlmsg_align(size_of::<NlMsgHeader>()) }`;
the header record occupies 16 bytes. -/
def nlmsg_header_length : Nat := nlmsg_align 16

/-- `fn nlmsg_length(len: usize) -> usize { len + nlmsg_align(nlmsg_header_length()) }` -/
def nlmsg_length (len : Nat) : Nat := len + nlmsg_align nlmsg_header_length

/-- Modelled from the spec: the Header Codec's type discrimination —
`1 = Error`, `2 = Done`, `0` or any other value is application data. -/
def NlMsgHeader.msg_type (h : NlMsgHeader) : MsgType :=
  if h.nlmsg_type = 1 then .Error else if h.nlmsg_type = 2 then .Done else .Data

/-- Modelled from the spec: the header's self-declared total message
length (header plus payload), as a `usize`. -/
def NlMsgHeader.msg_length (h : NlMsgHeader) : Nat := h.nlmsg_len

/-- Modelled from the spec: Header Codec `encode` — the fixed-width
native-endian (little-endian, per the repository's test vectors)
encoding; always succeeds. -/
def NlMsgHeader.bytes (h : NlMsgHeader) : List Nat :=
  le32 h.nlmsg_len ++ le16 h.nlmsg_type ++ le16 h.nlmsg_flags ++
    le32 h.nlmsg_seq ++ le32 h.nlmsg_pid

/-- Modelled from the spec: Header Codec `decode` — fails with
`MalformedHeader` if fewer bytes remain than the fixed header size,
otherwise returns the header and the exact header byte width consumed. -/
def NlMsgHeader.from_bytes (bytes : List Nat) :
    Except NlError (NlMsgHeader × Nat) :=
  if bytes.length < 16 then .error .malformedHeader
  else
    .ok
      (⟨readLE32 (bytes.getD 0 0) (bytes.getD 1 0) (bytes.getD 2 0) (bytes.getD 3 0),
        readLE16 (bytes.getD 4 0) (bytes.getD 5 0),
        readLE16 (bytes.getD 6 0) (bytes.getD 7 0),
        readLE32 (bytes.getD 8 0) (bytes.getD 9 0) (bytes.getD 10 0) (bytes.getD 11 0),
        readLE32 (bytes.getD 12 0) (bytes.getD 13 0) (bytes.getD 14 0) (bytes.getD 15 0)⟩,
        16)

/-- Modelled from the spec: named constructor `request()` —
type = data/request, flags = 0; the stored length is set by
`data_length`. -/
def NlMsgHeader.request : NlMsgHeader :=
  ⟨nlmsg_length 0, 0, 0, 0, 0⟩

/-- Modelled from the spec: named constructor `done()` — type = Done. -/
def NlMsgHeader.done : NlMsgHeader :=
  ⟨nlmsg_length 0, 2, 0, 0, 0⟩

/-- Modelled from the spec: builder `data_length` — adds the header size
to the payload length to obtain the stored total length (`u32`). -/
def NlMsgHeader.data_length (h : NlMsgHeader) (len : Nat) : NlMsgHeader :=
  { h with nlmsg_len := nlmsg_length len % 2 ^ 32 }

/-- Modelled from the spec: builder setting the sequence number. -/
def NlMsgHeader.seq (h : NlMsgHeader) (s : Nat) : NlMsgHeader :=
  { h with nlmsg_seq := s % 2 ^ 32 }

/-- Modelled from the spec: builder setting the port-id. -/
def NlMsgHeader.pid (h : NlMsgHeader) (p : Nat) : NlMsgHeader :=
  { h with nlmsg_pid := p % 2 ^ 32 }

/-- All header fields within their machine-integer ranges. -/
def WFHeader (h : NlMsgHeader) : Prop :=
  h.nlmsg_len < 2 ^ 32 ∧ h.nlmsg_type < 2 ^ 16 ∧ h.nlmsg_flags < 2 ^ 16 ∧
    h.nlmsg_seq < 2 ^ 32 ∧ h.nlmsg_pid < 2 ^ 32

instance (h : NlMsgHeader) : Decidable (WFHeader h) := by
  unfold WFHeader
  infer_instance

/-- The payload variants of `socket/mod.rs`. -/
inductive Payload where
  | None
  | Data (b : List Nat)
  | Ack (h : NlMsgHeader)
  | Err (code : Int) (h : NlMsgHeader)
deriving DecidableEq

/-- `Payload::data`: fails if fewer than `len` bytes are available,
otherwise borrows exactly the first `len` bytes, consuming `len`. -/
def Payload.data (bytes : List Nat) (len : Nat) :
    Except NlError (Payload × Nat) :=
  if bytes.length < len then .error .truncatedPayload
  else .ok (.Data (bytes.take len), len)

/-- `Payload::nlmsg_error`: reads a 4-byte signed native-endian error
code, then an embedded header; code `0` wraps as `Ack`, otherwise
`Err(code, header)`; consumed is `4 +` the header width. -/
def Payload.nlmsg_error (bytes : List Nat) :
    Except NlError (Payload × Nat) :=
  match bytes with
  | b0 :: b1 :: b2 :: b3 :: rest =>
    match NlMsgHeader.from_bytes rest with
    | .error e => .error e
    | .ok (hdr, n2) =>
      let err := readI32 b0 b1 b2 b3
      if err = 0 then .ok (.Ack hdr, 4 + n2) else .ok (.Err err hdr, 4 + n2)
  | _ => .error .unexpectedEof

/-- `Payload::bytes`: `None` encodes to nothing, `Data` verbatim, `Ack`
as a zero code plus the embedded header, `Err` as the code plus the
embedded header.  (The source returns `io::Result<Vec<u8>>` but the
writes into a `Vec` cannot fail.) -/
def Payload.bytes : Payload → List Nat
  | .None => []
  | .Data b => b
  | .Ack h => le32 0 ++ h.bytes
  | .Err code h => le32i code ++ h.bytes

deriving instance DecidableEq for Except

/-- A decoded message: header plus payload. -/
structure Msg where
  header : NlMsgHeader
  payload : Payload
deriving DecidableEq

/-- `Msg::from_bytes`: decode the header, validate
`n <= end <= bytes.len()` against the header's self-declared total
length (else `InvalidMessageLength`), then dispatch on the message
type: `Done` carries no payload; `Error` decodes `bytes[n..end]` as an
error payload; anything else decodes `bytes[n..]` as data of length
`msg_length - nlmsg_header_length()`. -/
def Msg.from_bytes (bytes : List Nat) : Except NlError (Msg × Nat) :=
  match NlMsgHeader.from_bytes bytes with
  | .error e => .error e
  | .ok (hdr, n) =>
    let stop := hdr.msg_length
    if n ≤ stop ∧ stop ≤ bytes.length then
      match hdr.msg_type with
      | .Done => .ok (⟨hdr, .None⟩, n + 0)
      | .Error =>
        match Payload.nlmsg_error ((bytes.take stop).drop n) with
        | .error e => .error e
        | .ok (p, n2) => .ok (⟨hdr, p⟩, n + n2)
      | .Data =>
        match Payload.data (bytes.drop n) (hdr.msg_length - nlmsg_header_length) with
        | .error e => .error e
        | .ok (p, n2) => .ok (⟨hdr, p⟩, n + n2)
    else .error .invalidMessageLength

/-- `Msg::bytes`: header bytes followed by payload bytes. -/
def Msg.bytes (m : Msg) : List Nat := m.header.bytes ++ m.payload.bytes

/-- `Socket::send_multi` serialisation: the concatenation of each
message's encoding, in order, sent as one buffer. -/
def sendMultiBytes (msgs : List Msg) : List Nat := msgs.flatMap Msg.bytes

/-- Fuelled form of the `while let Ok((msg, num_bytes)) = Msg::from_bytes(...)`
loop of `Socket::recv`: advance by each decoded message's consumed
count, stop (returning the collected list) on a `Done` message or on
the first decode failure. -/
def walkFuel : Nat → List Nat → List Msg
  | 0, _ => []
  | fuel + 1, bytes =>
    match Msg.from_bytes bytes with
    | .error _ => []
    | .ok (msg, k) =>
      match msg.header.msg_type with
      | .Done => []
      | _ => msg :: walkFuel fuel (bytes.drop k)

/-- The buffer walker of `Socket::recv`.  Every successful decode
consumes at least the 16-byte header (and a buffer shorter than 16
bytes fails to decode), so `bytes.length + 1` units of fuel always
suffice; `walkFuel_high` below proves the result is fuel-independent. -/
def walk (bytes : List Nat) : List Msg := walkFuel (bytes.length + 1) bytes

/-- Modelled from the spec: the transport's `recv_from` writes the
datagram's `bytes_received` bytes at the start of the session's
reusable buffer and leaves the rest of the buffer unchanged.
`Socket::recv` then walks the buffer from offset 0; the source binds
`let (saddr, _) = self.inner.recvfrom_into(buffer, 0)?`, discarding
`bytes_received`, and walks the whole reusable buffer.  `stale` is the
buffer content left by earlier receives, `datagram` the newly received
bytes. -/
def recvWalk (stale datagram : List Nat) : List Msg :=
  walk (datagram ++ stale.drop datagram.length)

/-- A well-formed application-data message: header fields in range, a
data-type header, and a stored total length of header size plus payload
size (as the `data_length` builder produces). -/
def DataMsg (m : Msg) : Prop :=
  WFHeader m.header ∧ m.header.msg_type = .Data ∧
    ∃ b, m.payload = .Data b ∧ m.header.nlmsg_len = 16 + b.length

/-- A well-formed end-marker header: header fields in range, Done type,
total length equal to the bare header size. -/
def DoneHeader (h : NlMsgHeader) : Prop :=
  WFHeader h ∧ h.msg_type = .Done ∧ h.nlmsg_len = 16

/-- The signed 32-bit error code at the front of an error payload, as
`Payload::nlmsg_error` reads it. -/
def errCode (bytes : List Nat) : Int :=
  readI32 (bytes.getD 0 0) (bytes.getD 1 0) (bytes.getD 2 0) (bytes.getD 3 0)

/-- A minimal 16-byte wire message: a data-type header whose declared
total length is exactly the header size (empty payload). -/
def hdr16buf : List Nat := [16, 0, 0, 0, 0, 0, 0, 0, 0, 0, 0, 0, 0, 0, 0, 0]

/-- A 16-byte buffer whose header declares a 17-byte total length. -/
def shortHdrBuf : List Nat := [17, 0, 0, 0, 0, 0, 0, 0, 0, 0, 0, 0, 0, 0, 0, 0]

/-- A 20-byte error payload: zero code followed by a 16-byte header. -/
def ackBuf : List Nat := [0, 0, 0, 0, 16, 0, 0, 0, 0, 0, 0, 0, 0, 0, 0, 0, 0, 0, 0, 0]

/-- The header of the spec's literal scenario: request, data length 6,
sequence 1, port-id 102. -/
def literalHeader : NlMsgHeader := ((NlMsgHeader.request.data_length 6).seq 1).pid 102

/-- The message of the spec's literal scenario. -/
def literalMsg : Msg := ⟨literalHeader, .Data [0, 1, 2, 3, 4, 5]⟩

/-- A sample multipart data message used to instantiate the walker
theorems. -/
def sampleData : Msg := ⟨⟨22, 0, 3, 1, 100⟩, .Data [9, 8, 7, 6, 5, 4]⟩

/-- A sample Done end-marker header. -/
def sampleDone : NlMsgHeader := ⟨16, 2, 0, 1, 100⟩

theorem land_mask (x : Nat) (hx : x < 2 ^ 64) : x &&& (2 ^ 64 - 4) = x - x % 4 := by
  have hmask : (2 : Nat) ^ 64 - 4 = (2 ^ 62 - 1) <<< 2 := by
    rw [Nat.shiftLeft_eq]
    norm_num
  have hsub : x - x % 4 = (x >>> 2) <<< 2 := by
    rw [Nat.shiftLeft_eq, Nat.shiftRight_eq_div_pow]
    have h4 : (2 : Nat) ^ 2 = 4 := by norm_num
    rw [h4]
    omega
  apply Nat.eq_of_testBit_eq
  intro i
  rw [Nat.testBit_land, hmask, hsub, Nat.testBit_shiftLeft, Nat.testBit_shiftLeft,
    Nat.testBit_shiftRight, Nat.testBit_two_pow_sub_one]
  by_cases h2 : 2 ≤ i
  · by_cases h64 : i < 64
    · have hi : 2 + (i - 2) = i := by omega
      have hlt : i - 2 < 62 := by omega
      simp [h2, hi, hlt, ge_iff_le]
    · have hxi : x.testBit i = false := by
        apply Nat.testBit_lt_two_pow
        calc x < 2 ^ 64 := hx
        _ ≤ 2 ^ i := Nat.pow_le_pow_right (by norm_num) (by omega)
      have hlt : ¬ (i - 2 < 62) := by omega
      have hi : 2 + (i - 2) = i := by omega
      simp [hxi, hlt, hi]
  · simp [ge_iff_le, h2]

theorem nlmsg_align_spec (len : Nat) (h : len + 3 < 2 ^ 64) :
    nlmsg_align len = (len + 3) - (len + 3) % 4 := by
  unfold nlmsg_align NLMSG_ALIGNTO
  have hm : (len + 3) % 2 ^ 64 = len + 3 := Nat.mod_eq_of_lt h
  have hmask : (2 ^ 64 - 1 - 3 : Nat) = 2 ^ 64 - 4 := by norm_num
  rw [show (4 - 1 : Nat) = 3 from rfl, hm, hmask, land_mask (len + 3) h]

theorem header_bytes_length (h : NlMsgHeader) : h.bytes.length = 16 := by
  simp [NlMsgHeader.bytes, le32, le16]

theorem header_from_bytes_bytes (h : NlMsgHeader) (hw : WFHeader h) (rest : List Nat) :
    NlMsgHeader.from_bytes (h.bytes ++ rest) = .ok (h, 16) := by
  obtain ⟨h1, h2, h3, h4, h5⟩ := hw
  cases h with
  | mk len ty fl sq pd =>
    simp only [NlMsgHeader.bytes, le32, le16, List.cons_append, List.nil_append,
      List.append_assoc] at *
    unfold NlMsgHeader.from_bytes
    rw [if_neg (by simp)]
    simp only [List.getD_cons_zero, List.getD_cons_succ]
    unfold readLE32 readLE16
    simp only [Except.ok.injEq, Prod.mk.injEq, NlMsgHeader.mk.injEq]
    refine ⟨⟨?_, ?_, ?_, ?_, ?_⟩, trivial⟩ <;> omega

theorem header_from_bytes_ok {bytes : List Nat} {hdr : NlMsgHeader} {n : Nat}
    (h : NlMsgHeader.from_bytes bytes = .ok (hdr, n)) : n = 16 ∧ 16 ≤ bytes.length := by
  unfold NlMsgHeader.from_bytes at h
  split at h
  · simp at h
  · simp only [Except.ok.injEq, Prod.mk.injEq] at h
    refine ⟨h.2.symm, by omega⟩

theorem msg_from_bytes_bounds {bytes : List Nat} {m : Msg} {k : Nat}
    (hk : Msg.from_bytes bytes = .ok (m, k)) : 16 ≤ k ∧ 16 ≤ bytes.length := by
  unfold Msg.from_bytes at hk
  cases hdec : NlMsgHeader.from_bytes bytes with
  | error e => rw [hdec] at hk; simp at hk
  | ok pr =>
    obtain ⟨hdr, n⟩ := pr
    obtain ⟨hn, hlen⟩ := header_from_bytes_ok hdec
    subst hn
    rw [hdec] at hk
    simp only at hk
    refine ⟨?_, hlen⟩
    split at hk
    · split at hk
      · simp only [Except.ok.injEq, Prod.mk.injEq] at hk
        omega
      · split at hk
        · simp at hk
        · simp only [Except.ok.injEq, Prod.mk.injEq] at hk
          omega
      · split at hk
        · simp at hk
        · simp only [Except.ok.injEq, Prod.mk.injEq] at hk
          omega
    · simp at hk

theorem walkFuel_succ (f : Nat) (bytes : List Nat) :
    walkFuel (f + 1) bytes =
      match Msg.from_bytes bytes with
      | .error _ => []
      | .ok (msg, k) =>
        match msg.header.msg_type with
        | .Done => []
        | _ => msg :: walkFuel f (bytes.drop k) := rfl

theorem walkFuel_eq_of_lt (f1 : Nat) :
    ∀ f2 bytes, bytes.length < f1 → bytes.length < f2 →
      walkFuel f1 bytes = walkFuel f2 bytes := by
  induction f1 with
  | zero => intro f2 bytes h1 h2; omega
  | succ f ih =>
    intro f2 bytes h1 h2
    match f2 with
    | g + 1 =>
      rw [walkFuel_succ, walkFuel_succ]
      cases hdec : Msg.from_bytes bytes with
      | error e => rfl
      | ok pr =>
        obtain ⟨msg, k⟩ := pr
        obtain ⟨hk16, hlen16⟩ := msg_from_bytes_bounds hdec
        cases hty : msg.header.msg_type with
        | Done => simp only [hty]
        | Data =>
          simp only [hty, List.cons.injEq, true_and]
          apply ih
          · simp only [List.length_drop]; omega
          · simp only [List.length_drop]; omega
        | Error =>
          simp only [hty, List.cons.injEq, true_and]
          apply ih
          · simp only [List.length_drop]; omega
          · simp only [List.length_drop]; omega

theorem walk_eq_fuel {f : Nat} {bytes : List Nat} (h : bytes.length < f) :
    walkFuel f bytes = walk bytes :=
  walkFuel_eq_of_lt f (bytes.length + 1) bytes h (by omega)

theorem walk_error {bytes : List Nat} {e : NlError}
    (h : Msg.from_bytes bytes = .error e) : walk bytes = [] := by
  unfold walk
  rw [walkFuel_succ, h]

theorem walk_done {bytes : List Nat} {msg : Msg} {k : Nat}
    (h : Msg.from_bytes bytes = .ok (msg, k)) (hd : msg.header.msg_type = .Done) :
    walk bytes = [] := by
  unfold walk
  rw [walkFuel_succ, h]
  simp only [hd]

theorem walk_cons {bytes : List Nat} {msg : Msg} {k : Nat}
    (h : Msg.from_bytes bytes = .ok (msg, k)) (hd : msg.header.msg_type ≠ .Done) :
    walk bytes = msg :: walk (bytes.drop k) := by
  obtain ⟨hk16, hlen16⟩ := msg_from_bytes_bounds h
  have hlt : (bytes.drop k).length < bytes.length := by
    simp only [List.length_drop]; omega
  conv_lhs => rw [walk]
  rw [walkFuel_succ, h]
  cases hty : msg.header.msg_type with
  | Done => exact absurd hty hd
  | Data => simp only [hty, walk_eq_fuel hlt]
  | Error => simp only [hty, walk_eq_fuel hlt]

theorem nlmsg_header_length_eq : nlmsg_header_length = 16 := by decide

theorem header_from_bytes_exact (h : NlMsgHeader) (hw : WFHeader h) :
    NlMsgHeader.from_bytes h.bytes = .ok (h, 16) := by
  have := header_from_bytes_bytes h hw []
  rwa [List.append_nil] at this

theorem data_msg_bytes_length {m : Msg} (hm : DataMsg m) :
    m.bytes.length = m.header.nlmsg_len := by
  obtain ⟨hw, hty, b, hp, hlen⟩ := hm
  simp [Msg.bytes, header_bytes_length, hp, Payload.bytes, hlen]

theorem msg_from_bytes_data (m : Msg) (hm : DataMsg m) (rest : List Nat) :
    Msg.from_bytes (m.bytes ++ rest) = .ok (m, m.header.nlmsg_len) := by
  obtain ⟨hw, hty, b, hp, hlen⟩ := hm
  have hbytes : m.bytes ++ rest = m.header.bytes ++ (b ++ rest) := by
    simp [Msg.bytes, hp, Payload.bytes]
  rw [hbytes]
  unfold Msg.from_bytes
  rw [header_from_bytes_bytes m.header hw (b ++ rest)]
  have hstoplen : m.header.msg_length = 16 + b.length := hlen
  have hlenbuf : (m.header.bytes ++ (b ++ rest)).length = 16 + b.length + rest.length := by
    simp [header_bytes_length]
    omega
  simp only [hstoplen]
  rw [if_pos (by constructor <;> omega)]
  rw [hty]
  have hdrop : (m.header.bytes ++ (b ++ rest)).drop 16 = b ++ rest := by
    conv_lhs => rw [show (16 : Nat) = m.header.bytes.length from (header_bytes_length m.header).symm]
    exact List.drop_left m.header.bytes (b ++ rest)
  rw [hdrop, nlmsg_header_length_eq]
  have hsub : 16 + b.length - 16 = b.length := by omega
  rw [hsub]
  unfold Payload.data
  rw [if_neg (by simp)]
  rw [List.take_left b rest]
  cases m with
  | mk hh pp =>
    simp only at hp hlen ⊢
    rw [hp, hlen]

theorem msg_from_bytes_done (h : NlMsgHeader) (hd : DoneHeader h) (junk : List Nat) :
    Msg.from_bytes (h.bytes ++ junk) = .ok (⟨h, .None⟩, 16) := by
  obtain ⟨hw, hty, hlen⟩ := hd
  unfold Msg.from_bytes
  rw [header_from_bytes_bytes h hw junk]
  have hstoplen : h.msg_length = 16 := hlen
  have hlenbuf : (h.bytes ++ junk).length = 16 + junk.length := by
    simp [header_bytes_length]
  simp only [hstoplen]
  rw [if_pos (by constructor <;> omega)]
  rw [hty]

theorem readI32_le32i (code : Int) (hlo : -(2 ^ 31) ≤ code) (hhi : code < 2 ^ 31) :
    readI32 ((code % (2 ^ 32)).toNat % 256) ((code % (2 ^ 32)).toNat / 256 % 256)
      ((code % (2 ^ 32)).toNat / 65536 % 256)
      ((code % (2 ^ 32)).toNat / 16777216 % 256) = code := by
  have h0 : (0 : Int) ≤ code % (2 ^ 32) := Int.emod_nonneg code (by norm_num)
  have h1 : code % (2 ^ 32) < 2 ^ 32 := Int.emod_lt_of_pos code (by norm_num)
  set u := (code % (2 ^ 32)).toNat with hu
  have hcast : (u : Int) = code % (2 ^ 32) := Int.toNat_of_nonneg h0
  have hu32 : u < 2 ^ 32 := by omega
  unfold readI32 readLE32
  simp only
  have hr : u % 256 + 256 * (u / 256 % 256) + 65536 * (u / 65536 % 256) +
      16777216 * (u / 16777216 % 256) = u := by omega
  rw [hr]
  have hcases : code % (2 ^ 32) = code ∨ code % (2 ^ 32) = code + 2 ^ 32 := by
    rcases le_or_lt 0 code with hpos | hneg
    · left
      exact Int.emod_eq_of_lt hpos (by omega)
    · right
      have h32 : code % (2 ^ 32) = (code + 2 ^ 32 * 1) % (2 ^ 32) := by
        rw [Int.add_mul_emod_self_left]
      rw [h32]
      have hx : code + 2 ^ 32 * 1 = code + 2 ^ 32 := by ring
      rw [hx]
      exact Int.emod_eq_of_lt (by omega) (by omega)
  split_ifs with hsmall
  · omega
  · omega

theorem nlmsg_error_cons (b0 b1 b2 b3 : Nat) (rest : List Nat) :
    Payload.nlmsg_error (b0 :: b1 :: b2 :: b3 :: rest) =
      match NlMsgHeader.from_bytes rest with
      | .error e => .error e
      | .ok (hdr, n2) =>
        if readI32 b0 b1 b2 b3 = 0 then .ok (.Ack hdr, 4 + n2)
        else .ok (.Err (readI32 b0 b1 b2 b3) hdr, 4 + n2) := rfl

/-- C7: for every representable signed 32-bit error code and every
well-formed header, decoding the encoding of the error payload yields
`Err(code, h)` when the code is nonzero and `Ack(h)` when it is zero,
with consumed 20; and `Ack(h)` encodes identically to `Err(0, h)`. -/
theorem error_payload_roundtrip (code : Int) (h : NlMsgHeader)
    (hlo : -(2 ^ 31) ≤ code) (hhi : code < 2 ^ 31) (hw : WFHeader h) :
    Payload.nlmsg_error ((Payload.Err code h).bytes) =
      .ok (if code = 0 then .Ack h else .Err code h, 20) ∧
    (Payload.Ack h).bytes = (Payload.Err 0 h).bytes := by
  constructor
  · have hshape : (Payload.Err code h).bytes =
        ((code % (2 ^ 32)).toNat % 256) :: ((code % (2 ^ 32)).toNat / 256 % 256) ::
          ((code % (2 ^ 32)).toNat / 65536 % 256) ::
          ((code % (2 ^ 32)).toNat / 16777216 % 256) :: h.bytes := by
      simp [Payload.bytes, le32i, le32]
    rw [hshape, nlmsg_error_cons, header_from_bytes_exact h hw]
    simp only
    rw [readI32_le32i code hlo hhi]
    by_cases hz : code = 0
    · simp [hz]
    · simp [hz]
  · simp [Payload.bytes, le32i, le32]

/-- C6: whenever error-payload decode succeeds it has read a 4-byte
signed native-endian error code followed by an embedded header decoded
from the bytes after those 4; the result is `Ack` of that header when
the code is zero, `Err(code, header)` otherwise, and the consumed count
is `4 + 16` (four code bytes plus the embedded header size). -/
theorem nlmsg_error_ok_shape (bytes : List Nat) (p : Payload) (k : Nat)
    (h : Payload.nlmsg_error bytes = .ok (p, k)) :
    ∃ hdr, NlMsgHeader.from_bytes (bytes.drop 4) = .ok (hdr, 16) ∧ k = 4 + 16 ∧
      ((errCode bytes = 0 ∧ p = .Ack hdr) ∨
        (errCode bytes ≠ 0 ∧ p = .Err (errCode bytes) hdr)) := by
  rcases bytes with _ | ⟨b0, _ | ⟨b1, _ | ⟨b2, _ | ⟨b3, rest⟩⟩⟩⟩
  · simp [Payload.nlmsg_error] at h
  · simp [Payload.nlmsg_error] at h
  · simp [Payload.nlmsg_error] at h
  · simp [Payload.nlmsg_error] at h
  · rw [nlmsg_error_cons] at h
    cases hdec : NlMsgHeader.from_bytes rest with
    | error e => rw [hdec] at h; simp at h
    | ok pr =>
      obtain ⟨hdr, n2⟩ := pr
      have hn2 : n2 = 16 := (header_from_bytes_ok hdec).1
      subst hn2
      rw [hdec] at h
      simp only at h
      have hcode : errCode (b0 :: b1 :: b2 :: b3 :: rest) = readI32 b0 b1 b2 b3 := by
        simp [errCode]
      have hdrop : (b0 :: b1 :: b2 :: b3 :: rest).drop 4 = rest := rfl
      split_ifs at h with hz
      · simp only [Except.ok.injEq, Prod.mk.injEq] at h
        exact ⟨hdr, by rw [hdrop]; exact hdec, h.2.symm,
          Or.inl ⟨by rw [hcode]; exact hz, h.1.symm⟩⟩
      · simp only [Except.ok.injEq, Prod.mk.injEq] at h
        refine ⟨hdr, by rw [hdrop]; exact hdec, h.2.symm,
          Or.inr ⟨by rw [hcode]; exact hz, ?_⟩⟩
        rw [hcode, ← h.1]

/-- C1: the claim says `recv` applies the Buffer Walker only to the first
`bytes_received` bytes of the reusable buffer.  The source discards the
received length (`let (saddr, _) = ...recvfrom_into(buffer, 0)?`) and
walks the whole buffer, so bytes beyond the received datagram can
contribute messages: receiving a 16-byte datagram into a buffer whose
stale tail still holds a previous 16-byte message yields 2 messages,
while walking only the filled portion yields 1. -/
theorem recv_walks_stale_bytes :
    recvWalk (hdr16buf ++ hdr16buf) hdr16buf ≠ walk hdr16buf ∧
    (recvWalk (hdr16buf ++ hdr16buf) hdr16buf).length = 2 ∧
    (walk hdr16buf).length = 1 := by decide

/-- C2 (counterexample): in the literal scenario (request header,
data length 6, sequence 1, port-id 102, payload `[0,1,2,3,4,5]`),
decode of the encoding consumes 22 bytes, which is not
`16 + align(6) = 24` as the claim states. -/
theorem literal_scenario_consumed_ne_aligned :
    Msg.from_bytes literalMsg.bytes = .ok (literalMsg, 22) ∧
    22 ≠ nlmsg_header_length + nlmsg_align 6 := by decide

/-- C2 (amended): in the literal scenario, decoding the encoding yields
identical header fields and payload `Data [0,1,2,3,4,5]`, and the
consumed count is `payload_length + align(header_size) = 6 + 16 = 22`
(the per-message advance is the header's stored total length, which
does not align the payload length). -/
theorem literal_scenario_roundtrip :
    Msg.from_bytes literalMsg.bytes =
      .ok (literalMsg, 6 + nlmsg_align nlmsg_header_length) := by decide

/-- C3: whenever the decoded header's self-declared total length `end`
violates `header_consumed <= end <= bytes.len()`, message decode fails
with `InvalidMessageLength`; in particular a header declaring a length
beyond the buffer is rejected and no message is returned. -/
theorem msg_from_bytes_invalid_length (bytes : List Nat) (hdr : NlMsgHeader) (n : Nat)
    (hdec : NlMsgHeader.from_bytes bytes = .ok (hdr, n))
    (hviol : ¬ (n ≤ hdr.msg_length ∧ hdr.msg_length ≤ bytes.length)) :
    Msg.from_bytes bytes = .error .invalidMessageLength := by
  unfold Msg.from_bytes
  rw [hdec]
  simp only
  rw [if_neg hviol]

/-- Witness for C3 at a concrete 16-byte buffer declaring length 17. -/
theorem msg_from_bytes_invalid_length_witness :
    Msg.from_bytes shortHdrBuf = .error .invalidMessageLength :=
  msg_from_bytes_invalid_length shortHdrBuf ⟨17, 0, 0, 0, 0⟩ 16 (by decide) (by decide)

/-- C4: a buffer holding `k` concatenated well-formed Data messages
followed by one Done message (and arbitrary trailing bytes) walks to
exactly those `k` messages in on-wire (send) order; the Done message is
excluded and nothing beyond it is consumed (the result is independent
of `junk`). -/
theorem walk_concat_data_then_done (msgs : List Msg) (dh : NlMsgHeader) (junk : List Nat)
    (hms : ∀ m ∈ msgs, DataMsg m) (hdh : DoneHeader dh) :
    walk (sendMultiBytes (msgs ++ [⟨dh, .None⟩]) ++ junk) = msgs := by
  induction msgs with
  | nil =>
    have hb : sendMultiBytes ([] ++ [Msg.mk dh .None]) ++ junk = dh.bytes ++ junk := by
      simp [sendMultiBytes, Msg.bytes, Payload.bytes]
    rw [hb]
    exact walk_done (msg_from_bytes_done dh hdh junk) hdh.2.1
  | cons m ms ih =>
    have hm : DataMsg m := hms m (List.mem_cons_self m ms)
    have hrest : ∀ x ∈ ms, DataMsg x := fun x hx => hms x (List.mem_cons_of_mem m hx)
    have hb : sendMultiBytes ((m :: ms) ++ [Msg.mk dh .None]) ++ junk =
        m.bytes ++ (sendMultiBytes (ms ++ [Msg.mk dh .None]) ++ junk) := by
      simp [sendMultiBytes]
    rw [hb]
    have hdec := msg_from_bytes_data m hm (sendMultiBytes (ms ++ [Msg.mk dh .None]) ++ junk)
    have hnotdone : m.header.msg_type ≠ .Done := by
      rw [hm.2.1]
      intro hc
      cases hc
    rw [walk_cons hdec hnotdone]
    have hdrop : (m.bytes ++ (sendMultiBytes (ms ++ [Msg.mk dh .None]) ++ junk)).drop
        m.header.nlmsg_len = sendMultiBytes (ms ++ [Msg.mk dh .None]) ++ junk := by
      conv_lhs =>
        rw [show m.header.nlmsg_len = m.bytes.length from (data_msg_bytes_length hm).symm]
      exact List.drop_left _ _
    rw [hdrop, ih hrest]

/-- Witness for C4 with two concrete data messages, a Done marker and
trailing junk. -/
theorem walk_concat_data_then_done_witness :
    walk (sendMultiBytes ([sampleData, sampleData] ++ [Msg.mk sampleDone .None]) ++ [1, 2, 3]) =
      [sampleData, sampleData] := by
  apply walk_concat_data_then_done
  · intro m hm
    have hm2 : m = sampleData := by
      simp only [List.mem_cons, List.not_mem_nil, or_false] at hm
      rcases hm with h | h <;> exact h
    subst hm2
    exact ⟨by decide, by decide, [9, 8, 7, 6, 5, 4], rfl, by decide⟩
  · exact ⟨by decide, by decide, rfl⟩

/-- C5: payload data decode fails with `TruncatedPayload` exactly when
fewer than `declared_len` bytes remain, and otherwise returns a view of
exactly the first `declared_len` bytes with consumed `declared_len`. -/
theorem payload_data_spec (bytes : List Nat) (len : Nat) :
    (bytes.length < len → Payload.data bytes len = .error .truncatedPayload) ∧
    (len ≤ bytes.length →
      Payload.data bytes len = .ok (.Data (bytes.take len), len) ∧
        (bytes.take len).length = len) := by
  constructor
  · intro hlt
    unfold Payload.data
    rw [if_pos hlt]
  · intro hle
    refine ⟨?_, ?_⟩
    · unfold Payload.data
      rw [if_neg (by omega)]
    · simp [List.length_take]
      omega

/-- Witness for C5 at a concrete short buffer and a concrete fit. -/
theorem payload_data_spec_witness :
    (Payload.data [0, 1, 2] 5 = .error .truncatedPayload) ∧
    (Payload.data [0, 1, 2] 2 = .ok (.Data (([0, 1, 2] : List Nat).take 2), 2) ∧
      (([0, 1, 2] : List Nat).take 2).length = 2) :=
  ⟨(payload_data_spec [0, 1, 2] 5).1 (by decide), (payload_data_spec [0, 1, 2] 2).2 (by decide)⟩

/-- Witness for C6 at a concrete 20-byte acknowledgement payload. -/
theorem nlmsg_error_ok_shape_witness :
    ∃ hdr, NlMsgHeader.from_bytes (ackBuf.drop 4) = .ok (hdr, 16) ∧ (20 : Nat) = 4 + 16 ∧
      ((errCode ackBuf = 0 ∧ Payload.Ack ⟨16, 0, 0, 0, 0⟩ = .Ack hdr) ∨
        (errCode ackBuf ≠ 0 ∧ Payload.Ack ⟨16, 0, 0, 0, 0⟩ = .Err (errCode ackBuf) hdr)) :=
  nlmsg_error_ok_shape ackBuf (.Ack ⟨16, 0, 0, 0, 0⟩) 20 (by decide)

/-- Witness for C7 at code 1 and a concrete header. -/
theorem error_payload_roundtrip_witness :
    (Payload.nlmsg_error ((Payload.Err 1 ⟨16, 0, 0, 0, 0⟩).bytes) =
      .ok (if (1 : Int) = 0 then .Ack ⟨16, 0, 0, 0, 0⟩ else .Err 1 ⟨16, 0, 0, 0, 0⟩, 20)) ∧
    (Payload.Ack (⟨16, 0, 0, 0, 0⟩ : NlMsgHeader)).bytes =
      (Payload.Err 0 ⟨16, 0, 0, 0, 0⟩).bytes :=
  error_payload_roundtrip 1 ⟨16, 0, 0, 0, 0⟩ (by norm_num) (by norm_num) (by decide)

/-- C8: for every length whose `len + 3` does not overflow the 64-bit
word, the source's alignment function rounds up to a multiple of 4:
`align(n) % 4 = 0`, `n ≤ align(n)` and `align(n) < n + 4`. -/
theorem nlmsg_align_invariant (n : Nat) (h : n + 3 < 2 ^ 64) :
    nlmsg_align n % 4 = 0 ∧ n ≤ nlmsg_align n ∧ nlmsg_align n < n + 4 := by
  rw [nlmsg_align_spec n h]
  omega

/-- Witness for C8 at n = 5. -/
theorem nlmsg_align_invariant_witness :
    5 + 3 < 2 ^ 64 ∧ (nlmsg_align 5 % 4 = 0 ∧ 5 ≤ nlmsg_align 5 ∧ nlmsg_align 5 < 5 + 4) :=
  ⟨by norm_num, nlmsg_align_invariant 5 (by norm_num)⟩

/-- C9: every successful message decode consumes at least the fixed
16-byte header size, so the walk offset strictly increases and the
walker terminates (it is a total function); and a decode failure ends
the walk silently with the messages collected so far (here: none),
rather than propagating an error. -/
theorem walker_progress_and_silent_stop :
    (∀ (bytes : List Nat) (m : Msg) (k : Nat),
      Msg.from_bytes bytes = .ok (m, k) → nlmsg_header_length ≤ k) ∧
    (∀ (bytes : List Nat) (e : NlError),
      Msg.from_bytes bytes = .error e → walk bytes = []) := by
  constructor
  · intro bytes m k hk
    rw [nlmsg_header_length_eq]
    exact (msg_from_bytes_bounds hk).1
  · intro bytes e he
    exact walk_error he

/-- Witness for C9: a concrete successful decode consuming 16 bytes and
a concrete failing buffer on which the walk stops silently. -/
theorem walker_progress_and_silent_stop_witness :
    nlmsg_header_length ≤ 16 ∧ walk [1] = [] :=
  ⟨walker_progress_and_silent_stop.1 hdr16buf ⟨⟨16, 0, 0, 0, 0⟩, .Data []⟩ 16 (by decide),
    walker_progress_and_silent_stop.2 [1] .malformedHeader (by decide)⟩

/-- C10: once the length validation has succeeded, the payload-length
subtraction does not underflow (it agrees with integer subtraction),
the Error-path slice `bytes[n..end]` has exactly `end - n` elements,
and the Data-path decode over `bytes[n..]` with length
`end - aligned_header_size` always succeeds — no decode path can
panic. -/
theorem msg_decode_no_panic (bytes : List Nat) (hdr : NlMsgHeader) (n : Nat)
    (hdec : NlMsgHeader.from_bytes bytes = .ok (hdr, n))
    (hlo : n ≤ hdr.msg_length) (hhi : hdr.msg_length ≤ bytes.length) :
    n = nlmsg_header_length ∧
    ((hdr.msg_length : Int) - (nlmsg_header_length : Int) =
      ((hdr.msg_length - nlmsg_header_length : Nat) : Int)) ∧
    ((bytes.take hdr.msg_length).drop n).length = hdr.msg_length - n ∧
    Payload.data (bytes.drop n) (hdr.msg_length - nlmsg_header_length) =
      .ok (.Data ((bytes.drop n).take (hdr.msg_length - nlmsg_header_length)),
        hdr.msg_length - nlmsg_header_length) := by
  obtain ⟨hn, hblen⟩ := header_from_bytes_ok hdec
  subst hn
  rw [nlmsg_header_length_eq]
  refine ⟨rfl, by omega, ?_, ?_⟩
  · simp only [List.length_drop, List.length_take]
    omega
  · unfold Payload.data
    rw [if_neg (by simp only [List.length_drop]; omega)]

/-- Witness for C10 at the minimal 16-byte message buffer. -/
theorem msg_decode_no_panic_witness :
    (16 = nlmsg_header_length ∧
      (((NlMsgHeader.mk 16 0 0 0 0).msg_length : Int) - (nlmsg_header_length : Int) =
        (((NlMsgHeader.mk 16 0 0 0 0).msg_length - nlmsg_header_length : Nat) : Int)) ∧
      ((hdr16buf.take (NlMsgHeader.mk 16 0 0 0 0).msg_length).drop 16).length =
        (NlMsgHeader.mk 16 0 0 0 0).msg_length - 16 ∧
      Payload.data (hdr16buf.drop 16)
          ((NlMsgHeader.mk 16 0 0 0 0).msg_length - nlmsg_header_length) =
        .ok (.Data ((hdr16buf.drop 16).take
            ((NlMsgHeader.mk 16 0 0 0 0).msg_length - nlmsg_header_length)),
          (NlMsgHeader.mk 16 0 0 0 0).msg_length - nlmsg_header_length)) :=
  msg_decode_no_panic hdr16buf ⟨16, 0, 0, 0, 0⟩ 16 (by decide) (by decide) (by decide)

end Netlink
